import Mathlib

/-!
# Kitchen stations and the station manager

A shallow embedding of `KitchenStation.cpp` and `StationManager.cpp`.

* C++ `int` quantities are mathematical integers: signed overflow is undefined
  behaviour in C++, so the model describes the executions without overflow.
* `size_t` index arithmetic that can wrap (the `k--` of `prepareDish`) is modelled
  modulo `2 ^ 64`.
* A `Dish*` is an address; the dish objects live in a heap `DishPtr → Dish` that no
  modelled function writes to. Deallocation (`delete`) is not modelled.
* The manager owns its stations through pointers, one node per station object; the
  model keeps the station values themselves in the node sequence.
-/

namespace Bistro

/-! ## Data model -/

/-- The type `double` of `Ingredient::price`. The code only stores and copies prices,
it never computes with them, so a price is carried as an uninterpreted value, written
in hundredths (6.99 is 699). -/
abbrev Price := Int

/-- The struct `Ingredient` (quoted in `KitchenStation.cpp`, lines 126-136). -/
structure Ingredient where
  name : String
  quantity : Int
  required_quantity : Int
  price : Price
deriving DecidableEq

/-- Modelled from the spec: the class `Dish` (`Dish.hpp` is not among the sources), of
which the stations read `getName()` and `getIngredients()` only: "the core only needs
`name()`, `requiredIngredients()`". -/
structure Dish where
  name : String
  ingredients : List Ingredient
deriving DecidableEq

/-- A `Dish*`: the address of a dish object. Pointer equality is equality of
addresses. -/
abbrev DishPtr := Nat

/-- The dish objects, by address. -/
abbrev DishHeap := DishPtr → Dish

/-- The private members of `KitchenStation` (`KitchenStation.hpp`, lines 109-111). -/
structure KitchenStation where
  station_name_ : String
  dishes_ : List DishPtr
  ingredients_stock_ : List Ingredient
deriving DecidableEq

namespace KitchenStation

/-- The parameterized constructor `KitchenStation(station_name)`. -/
def new (station_name : String) : KitchenStation :=
  { station_name_ := station_name, dishes_ := [], ingredients_stock_ := [] }

/-- The accessor `getName`. -/
def getName (s : KitchenStation) : String := s.station_name_

/-- The mutator `setName`. -/
def setName (s : KitchenStation) (name : String) : KitchenStation :=
  { s with station_name_ := name }

/-- The accessor `getDishes`: returns a copy of the vector, by value. -/
def getDishes (s : KitchenStation) : List DishPtr := s.dishes_

/-- The accessor `getIngredientsStock`: returns a copy of the vector, by value. -/
def getIngredientsStock (s : KitchenStation) : List Ingredient := s.ingredients_stock_

/-- The loop of `assignDishToStation` (lines 97-103): `true` when some `dishes_[i]`
is the pointer `dish`. -/
def dishPresent (dish : DishPtr) : List DishPtr → Bool
  | [] => false
  | d :: ds => if d = dish then true else dishPresent dish ds

/-- The method `assignDishToStation` (lines 95-106): the returned boolean and the
station afterwards. -/
def assignDishToStation (s : KitchenStation) (dish : DishPtr) : Bool × KitchenStation :=
  if dishPresent dish s.dishes_ = true then (false, s)
  else (true, { s with dishes_ := s.dishes_ ++ [dish] })

/-- The loop of `replenishStationIngredients` (lines 116-122): every entry with the
ingredient's name has the ingredient's quantity added. -/
def replenishLoop (ingredient : Ingredient) : List Ingredient → List Ingredient
  | [] => []
  | e :: es =>
    (if e.name = ingredient.name then
        { e with quantity := e.quantity + ingredient.quantity }
      else e) :: replenishLoop ingredient es

/-- The method `replenishStationIngredients` (lines 114-124): the loop, then the
`push_back` of line 123, which no branch guards. -/
def replenishStationIngredients (s : KitchenStation) (ingredient : Ingredient) :
    KitchenStation :=
  { s with ingredients_stock_ := replenishLoop ingredient s.ingredients_stock_ ++ [ingredient] }

/-- The `k` loop of `canCompleteOrder` (lines 152-159): `ready` starts `false` and is
set by every stock entry of the requirement's name holding at least the required
quantity. -/
def readyLoop (req : Ingredient) : Bool → List Ingredient → Bool
  | ready, [] => ready
  | ready, e :: es =>
    if e.name = req.name ∧ e.quantity ≥ req.required_quantity then readyLoop req true es
    else readyLoop req ready es

/-- The `j` loop of `canCompleteOrder` (lines 150-165) over the requirements of the
matched dish. -/
def requirementsLoop (stock : List Ingredient) : List Ingredient → Bool
  | [] => true
  | req :: reqs =>
    if readyLoop req false stock = false then false else requirementsLoop stock reqs

/-- The `i` loop of `canCompleteOrder` (lines 146-168) over the assigned dishes. -/
def canCompleteLoop (heap : DishHeap) (stock : List Ingredient) (dish_name : String) :
    List DishPtr → Bool
  | [] => false
  | d :: ds =>
    if (heap d).name = dish_name then requirementsLoop stock (heap d).ingredients
    else canCompleteLoop heap stock dish_name ds

/-- The method `canCompleteOrder` (lines 144-169). It changes nothing. -/
def canCompleteOrder (heap : DishHeap) (s : KitchenStation) (dish_name : String) : Bool :=
  canCompleteLoop heap s.ingredients_stock_ dish_name s.dishes_

/-- The modulus of `size_t` arithmetic (64-bit). -/
def SIZE_MOD : Nat := 2 ^ 64

/-- The statement `k++` on a `size_t`. -/
def sizeInc (k : Nat) : Nat := (k + 1) % SIZE_MOD

/-- The statement `k--` on a `size_t`: at `0` it wraps to `SIZE_MOD - 1`. -/
def sizeDec (k : Nat) : Nat := (k + SIZE_MOD - 1) % SIZE_MOD

/-- The `k` loop of `prepareDish` (lines 190-201), on the index `k` and the stock
vector. While `k < ingredients_stock_.size()`: an entry of the requirement's name has
the required quantity subtracted in place (line 194); when the result is `<= 0` the
entry is erased and `k` is decremented (lines 197-198); then the loop header
increments `k`. The first argument bounds the number of iterations. -/
def stockScan (req : Ingredient) : Nat → Nat → List Ingredient → List Ingredient
  | 0, _, stock => stock
  | fuel + 1, k, stock =>
    match stock[k]? with
    | none => stock
    | some e =>
      if e.name = req.name then
        let e2 : Ingredient := { e with quantity := e.quantity - req.required_quantity }
        if e2.quantity ≤ 0 then
          stockScan req fuel (sizeInc (sizeDec k)) ((stock.set k e2).eraseIdx k)
        else stockScan req fuel (sizeInc k) (stock.set k e2)
      else stockScan req fuel (sizeInc k) stock

/-- The `j` loop of `prepareDish` (lines 188-202): one scan of the stock per
requirement of the matched dish. Every iteration of a scan erases an entry or advances
`k`, so `stock.length` iterations complete it. -/
def consumeLoop : List Ingredient → List Ingredient → List Ingredient
  | [], stock => stock
  | req :: reqs, stock => consumeLoop reqs (stockScan req stock.length 0 stock)

/-- The `i` loop of `prepareDish` (lines 184-205): the first dish of the given name is
consumed and `true` returned; with no such dish the loop ends and line 207 returns
`false`. -/
def prepareLoop (heap : DishHeap) (dish_name : String) :
    List DishPtr → List Ingredient → Bool × List Ingredient
  | [], stock => (false, stock)
  | d :: ds, stock =>
    if (heap d).name = dish_name then (true, consumeLoop (heap d).ingredients stock)
    else prepareLoop heap dish_name ds stock

/-- The method `prepareDish` (lines 180-208): the returned boolean and the station
afterwards. -/
def prepareDish (heap : DishHeap) (s : KitchenStation) (dish_name : String) :
    Bool × KitchenStation :=
  if canCompleteOrder heap s dish_name = true then
    let r := prepareLoop heap dish_name s.dishes_ s.ingredients_stock_
    (r.1, { s with ingredients_stock_ := r.2 })
  else (false, s)

end KitchenStation

/-! ## The ordered container -/

/-- Modelled from the spec: the class template `LinkedList` (`LinkedList.hpp` is not
among the sources), "a sequential structure supporting indexed insert, indexed remove,
indexed get, and length query". -/
structure LinkedList (α : Type) where
  items : List α
deriving DecidableEq

namespace LinkedList

variable {α : Type}

/-- Modelled from the spec: `getLength`, the "length query". -/
def getLength (l : LinkedList α) : Nat := l.items.length

/-- Modelled from the spec: `getEntry(position)`, the "indexed get"; `none` stands
for a position outside the list. -/
def getEntry (l : LinkedList α) (position : Nat) : Option α := l.items[position]?

/-- Modelled from the spec: `insert(position, item)`, the "indexed insert": for
`position <= getLength()` the item becomes the entry at `position` and `true` is
returned, otherwise the list is unchanged and `false` is returned. -/
def insert (l : LinkedList α) (position : Nat) (item : α) : Bool × LinkedList α :=
  if position ≤ l.items.length then
    (true, { items := l.items.take position ++ item :: l.items.drop position })
  else (false, l)

/-- Modelled from the spec: `remove(position)`, the "indexed remove": for
`position < getLength()` the entry at `position` is unlinked and `true` is returned,
otherwise the list is unchanged and `false` is returned. -/
def remove (l : LinkedList α) (position : Nat) : Bool × LinkedList α :=
  if position < l.items.length then (true, { items := l.items.eraseIdx position })
  else (false, l)

end LinkedList

/-! ## The station manager -/

/-- The class `StationManager`, a `LinkedList<KitchenStation*>`. Each node owns one
station object, kept here by value. -/
abbrev StationManager := LinkedList KitchenStation

namespace StationManager

/-- The scan `for (i = 0; i < getLength(); i++) if (getEntry(i)->getName() == name)`
shared by `addStation`, `removeStation` and `findStation`: the first position, counted
from `i`, of a station of that name. -/
def firstIndex (station_name : String) : List KitchenStation → Nat → Option Nat
  | [], _ => none
  | s :: ss, i =>
    if s.getName = station_name then some i else firstIndex station_name ss (i + 1)

/-- The method `addStation` (lines 48-58). -/
def addStation (m : StationManager) (station : KitchenStation) : Bool × StationManager :=
  match firstIndex station.getName m.items 0 with
  | some _ => (false, m)
  | none => m.insert m.getLength station

/-- The method `removeStation` (lines 67-79): the first station of that name is
deleted and its node removed. -/
def removeStation (m : StationManager) (station_name : String) : Bool × StationManager :=
  match firstIndex station_name m.items 0 with
  | some i => (true, (m.remove i).2)
  | none => (false, m)

/-- The method `findStation` (lines 87-97): the station the returned pointer points
to, `none` for `nullptr`. -/
def findStation (m : StationManager) (station_name : String) : Option KitchenStation :=
  match firstIndex station_name m.items 0 with
  | some i => m.getEntry i
  | none => none

/-- A write through the pointer returned by `findStation(station_name)`: the first
station of that name becomes `station`. -/
def storeStation (station_name : String) (station : KitchenStation) :
    List KitchenStation → List KitchenStation
  | [] => []
  | s :: ss =>
    if s.getName = station_name then station :: ss
    else s :: storeStation station_name station ss

/-- The loop of `moveStationToFront` (lines 113-119) on the index `i` and the list:
while `i < getLength()`, an entry of that name is removed, and `i` is incremented
either way. The first argument bounds the number of iterations. -/
def moveLoop (station_name : String) : Nat → Nat → StationManager → StationManager
  | 0, _, m => m
  | fuel + 1, i, m =>
    match m.getEntry i with
    | none => m
    | some e =>
      if e.getName = station_name then moveLoop station_name fuel (i + 1) (m.remove i).2
      else moveLoop station_name fuel (i + 1) m

/-- The method `moveStationToFront` (lines 108-124). The index grows at every
iteration of the loop, so `getLength()` iterations complete it. -/
def moveStationToFront (m : StationManager) (station_name : String) :
    Bool × StationManager :=
  match findStation m station_name with
  | some station => (true, ((moveLoop station_name m.getLength 0 m).insert 0 station).2)
  | none => (false, m)

/-- The first loop of `mergeStations` (lines 142-145), as it acts on the first station.
`station1->getDishes()` returns a copy of the vector by value (`KitchenStation.cpp`,
line 72); `push_back` extends that temporary, which is destroyed at the end of the
statement. The station itself is not written. -/
def mergeDishesLoop (station1 : KitchenStation) : List DishPtr → KitchenStation
  | [] => station1
  | d :: ds =>
    let _temporary : List DishPtr := station1.getDishes ++ [d]
    mergeDishesLoop station1 ds

/-- The second loop of `mergeStations` (lines 147-150): as the first one, on the copy
returned by `station1->getIngredientsStock()` (`KitchenStation.cpp`, line 82). -/
def mergeStockLoop (station1 : KitchenStation) : List Ingredient → KitchenStation
  | [] => station1
  | e :: es =>
    let _temporary : List Ingredient := station1.getIngredientsStock ++ [e]
    mergeStockLoop station1 es

/-- The method `mergeStations` (lines 135-155). -/
def mergeStations (m : StationManager) (station_name1 station_name2 : String) :
    Bool × StationManager :=
  match findStation m station_name1, findStation m station_name2 with
  | some station1, some station2 =>
    let station1a := mergeDishesLoop station1 station2.getDishes
    let station1b := mergeStockLoop station1a station2.getIngredientsStock
    let m1 : StationManager := { items := storeStation station_name1 station1b m.items }
    (true, (removeStation m1 station_name2).2)
  | _, _ => (false, m)

/-- The method `assignDishToStation` (lines 165-174): the boolean of the station's
method is not used (line 170), line 171 returns `true`. -/
def assignDishToStation (m : StationManager) (station_name : String) (dish : DishPtr) :
    Bool × StationManager :=
  match findStation m station_name with
  | some station =>
    (true, { items := storeStation station_name (station.assignDishToStation dish).2 m.items })
  | none => (false, m)

/-- The method `replenishIngredientAtStation` (lines 184-193). -/
def replenishIngredientAtStation (m : StationManager) (station_name : String)
    (ingredient : Ingredient) : Bool × StationManager :=
  match findStation m station_name with
  | some station =>
    let station1 := station.replenishStationIngredients ingredient
    (true, { items := storeStation station_name station1 m.items })
  | none => (false, m)

/-- The loop of `canCompleteOrder` (lines 204-211) over the stations. -/
def canCompleteAny (heap : DishHeap) (dish_name : String) : List KitchenStation → Bool
  | [] => false
  | s :: ss =>
    if s.canCompleteOrder heap dish_name = true then true
    else canCompleteAny heap dish_name ss

/-- The method `canCompleteOrder` (lines 202-212). -/
def canCompleteOrder (heap : DishHeap) (m : StationManager) (dish_name : String) : Bool :=
  canCompleteAny heap dish_name m.items

/-- The method `prepareDishAtStation` (lines 223-232): the boolean of the station's
`prepareDish` is not used (line 228), line 229 returns `true`. -/
def prepareDishAtStation (heap : DishHeap) (m : StationManager) (station_name : String)
    (dish_name : String) : Bool × StationManager :=
  match findStation m station_name with
  | some station =>
    (true, { items := storeStation station_name (station.prepareDish heap dish_name).2 m.items })
  | none => (false, m)

end StationManager

/-! ## The scenario of `main.cpp` -/

namespace Scenario

/-- The ingredient `i1` of `main.cpp`, line 14. -/
def i1 : Ingredient := { name := "flour", quantity := 10, required_quantity := 5, price := 699 }

/-- The ingredient `i2` of `main.cpp`, line 15. -/
def i2 : Ingredient := { name := "sugar", quantity := 20, required_quantity := 10, price := 399 }

/-- The ingredient `i3` of `main.cpp`, line 16. -/
def i3 : Ingredient := { name := "eggs", quantity := 12, required_quantity := 2, price := 499 }

/-- The ingredient `i4` of `main.cpp`, line 17. -/
def i4 : Ingredient := { name := "butter", quantity := 6, required_quantity := 3, price := 499 }

/-- The address of the dish allocated at `main.cpp`, line 20. -/
def d1 : DishPtr := 1

/-- The address of the dish allocated at `main.cpp`, line 21. -/
def d2 : DishPtr := 2

/-- The dish objects of `main.cpp`: "Cake" at `d1`, "Pasta" at `d2`. -/
def dishes : DishHeap := fun p =>
  if p = d1 then { name := "Cake", ingredients := [i1, i2, i3, i4] }
  else { name := "Pasta", ingredients := [i1, i2, i3, i4] }

/-- The manager of `main.cpp` after lines 23-36: two stations added, a dish assigned
to each, and the first station replenished with the four ingredients. -/
def kitchen : StationManager :=
  let m0 : StationManager := { items := [] }
  let m1 := (m0.addStation (KitchenStation.new "Station 1")).2
  let m2 := (m1.addStation (KitchenStation.new "Station 2")).2
  let m3 := (m2.assignDishToStation "Station 1" d1).2
  let m4 := (m3.assignDishToStation "Station 2" d2).2
  let m5 := (m4.replenishIngredientAtStation "Station 1" i1).2
  let m6 := (m5.replenishIngredientAtStation "Station 1" i2).2
  let m7 := (m6.replenishIngredientAtStation "Station 1" i3).2
  (m7.replenishIngredientAtStation "Station 1" i4).2

/-- The first station as lines 24-36 of `main.cpp` leave it. -/
def station1 : KitchenStation :=
  { station_name_ := "Station 1", dishes_ := [d1], ingredients_stock_ := [i1, i2, i3, i4] }

/-- A station assigned the cake, with enough flour for it and one sugar short. -/
def shortOfSugar : KitchenStation :=
  { station_name_ := "S", dishes_ := [d1],
    ingredients_stock_ := [i1, { name := "sugar", quantity := 9, required_quantity := 10, price := 399 }] }

/-- Two dish objects named "Cake": the one at address 1 needs flour, the other one
needs nothing. -/
def twoCakes : DishHeap := fun p =>
  if p = 1 then { name := "Cake", ingredients := [i1] }
  else { name := "Cake", ingredients := [] }

/-- A station assigned both cakes of `twoCakes`, in the order 1, 2, that stocks sugar
only. -/
def sugarOnly : KitchenStation :=
  { station_name_ := "S", dishes_ := [1, 2], ingredients_stock_ := [i2] }

/-- A station assigned the cake whose stock has flour and butter for exactly one cake,
sugar and eggs for more, and salt, which the cake does not need. -/
def pantry : KitchenStation :=
  { station_name_ := "P", dishes_ := [d1],
    ingredients_stock_ :=
      [{ name := "flour", quantity := 5, required_quantity := 0, price := 699 },
       { name := "salt", quantity := 1, required_quantity := 0, price := 99 },
       { name := "sugar", quantity := 25, required_quantity := 0, price := 399 },
       { name := "eggs", quantity := 10, required_quantity := 0, price := 499 },
       { name := "butter", quantity := 3, required_quantity := 0, price := 499 }] }

/-- A station with no dish that stocks the flour `i1` only. -/
def flourOnly : KitchenStation :=
  { station_name_ := "F", dishes_ := [], ingredients_stock_ := [i1] }

/-- A manager with two stations: "A" holds the dish at address 1 and stocks flour, "B"
holds the dish at address 2 and stocks flour and sugar. -/
def twoStations : StationManager :=
  { items :=
      [{ station_name_ := "A", dishes_ := [d1], ingredients_stock_ := [i1] },
       { station_name_ := "B", dishes_ := [d2], ingredients_stock_ := [i1, i2] }] }

/-- A flour record asking for 5 per dish, with 7 on hand and the price 6.99. -/
def breadFlour : Ingredient :=
  { name := "flour", quantity := 7, required_quantity := 5, price := 699 }

/-- A second delivery of flour: 5 on hand, at the price 6.50. -/
def flourTopUp : Ingredient :=
  { name := "flour", quantity := 5, required_quantity := 5, price := 650 }

/-- One dish object, "Bread", that needs 5 of flour. -/
def bread : DishHeap := fun _ => { name := "Bread", ingredients := [breadFlour] }

/-- The station reached from the empty station "F" by assigning the bread and
replenishing with `breadFlour`, then with `flourTopUp`. -/
def bakery : KitchenStation :=
  (((KitchenStation.new "F").assignDishToStation 1).2.replenishStationIngredients
    breadFlour).replenishStationIngredients flourTopUp

/-- A manager with the stations "A", "B", "C", in this order, all empty. -/
def threeStations : StationManager :=
  { items := [KitchenStation.new "A", KitchenStation.new "B", KitchenStation.new "C"] }

/-- The manager of `main.cpp` after the call of line 40. -/
def afterFirst : StationManager :=
  (kitchen.prepareDishAtStation dishes "Station 1" "Cake").2

/-- The manager after a second `prepareDishAtStation("Station 1", "Cake")`. -/
def afterSecond : StationManager :=
  (afterFirst.prepareDishAtStation dishes "Station 1" "Cake").2

/-- An ingredient that no station of the scenario stocks. -/
def salt : Ingredient := { name := "salt", quantity := 1, required_quantity := 0, price := 99 }

end Scenario

/-! ## Vocabulary of the specification -/

/-- The spec's condition on one requirement of a dish: the stock has an entry of the
same name whose quantity is at least the required quantity. -/
def InStock (stock : List Ingredient) (req : Ingredient) : Prop :=
  ∃ e ∈ stock, e.name = req.name ∧ e.quantity ≥ req.required_quantity

/-- The dish at `d` is the first dish of the list, in assignment order, that has the
given name. -/
def FirstDishNamed (heap : DishHeap) (dish_name : String) (dishes : List DishPtr)
    (d : DishPtr) : Prop :=
  ∃ pre post, dishes = pre ++ d :: post ∧ (∀ p ∈ pre, (heap p).name ≠ dish_name) ∧
    (heap d).name = dish_name

/-- The names of the stations of a sequence, in order. -/
def stationNames (l : List KitchenStation) : List String := l.map (fun s => s.getName)

/-- The names of a list of ingredient records, in order. -/
def names (l : List Ingredient) : List String := l.map (fun e => e.name)

/-- The spec's account of a preparation on one stock entry: an entry named by a
requirement has the required quantity subtracted and is dropped when the result is
`<= 0`; an entry that no requirement names is kept as it is. -/
def specConsume (reqs : List Ingredient) (e : Ingredient) : Option Ingredient :=
  match reqs.find? (fun r => decide (r.name = e.name)) with
  | none => some e
  | some r =>
    if e.quantity - r.required_quantity ≤ 0 then none
    else some { e with quantity := e.quantity - r.required_quantity }

/-- The effect of one scan of `prepareDish` (lines 192-199) on one stock entry. -/
def scanEntry (req e : Ingredient) : Option Ingredient :=
  if e.name = req.name then
    if e.quantity - req.required_quantity ≤ 0 then none
    else some { e with quantity := e.quantity - req.required_quantity }
  else some e

/-! ## Lemmas on `canCompleteOrder` -/

namespace KitchenStation

theorem readyLoop_true (req : Ingredient) (stock : List Ingredient) :
    readyLoop req true stock = true := by
  induction stock with
  | nil => rfl
  | cons e es ih =>
    simp only [readyLoop]
    split <;> exact ih

theorem readyLoop_false_iff (req : Ingredient) (stock : List Ingredient) :
    readyLoop req false stock = true ↔ InStock stock req := by
  induction stock with
  | nil => simp [readyLoop, InStock]
  | cons e es ih =>
    simp only [readyLoop]
    by_cases h : e.name = req.name ∧ e.quantity ≥ req.required_quantity
    · rw [if_pos h, readyLoop_true]
      simp only [true_iff]
      exact ⟨e, List.mem_cons_self _ _, h⟩
    · rw [if_neg h, ih]
      constructor
      · rintro ⟨x, hx, hx2⟩
        exact ⟨x, List.mem_cons_of_mem _ hx, hx2⟩
      · rintro ⟨x, hx, hx2⟩
        rcases List.mem_cons.mp hx with rfl | hx
        · exact absurd hx2 h
        · exact ⟨x, hx, hx2⟩

theorem requirementsLoop_iff (stock reqs : List Ingredient) :
    requirementsLoop stock reqs = true ↔ ∀ req ∈ reqs, InStock stock req := by
  induction reqs with
  | nil => simp [requirementsLoop]
  | cons r rs ih =>
    simp only [requirementsLoop, List.forall_mem_cons]
    by_cases h : readyLoop r false stock = false
    · rw [if_pos h]
      have : ¬ InStock stock r := by
        rw [← readyLoop_false_iff, h]; simp
      simp [this]
    · rw [if_neg h, ih]
      have : InStock stock r := by
        rw [← readyLoop_false_iff]; simpa using h
      simp [this]

theorem canCompleteLoop_iff (heap : DishHeap) (stock : List Ingredient) (n : String)
    (dishes : List DishPtr) :
    canCompleteLoop heap stock n dishes = true ↔
      ∃ d, FirstDishNamed heap n dishes d ∧
        ∀ req ∈ (heap d).ingredients, InStock stock req := by
  induction dishes with
  | nil => simp [canCompleteLoop, FirstDishNamed]
  | cons d ds ih =>
    simp only [canCompleteLoop]
    by_cases h : (heap d).name = n
    · rw [if_pos h, requirementsLoop_iff]
      constructor
      · intro hr
        exact ⟨d, ⟨[], ds, rfl, by simp, h⟩, hr⟩
      · rintro ⟨d2, ⟨pre, post, heq, hpre, _⟩, hr⟩
        cases pre with
        | nil =>
          simp only [List.nil_append, List.cons.injEq] at heq
          rw [heq.1]; exact hr
        | cons p ps =>
          simp only [List.cons_append, List.cons.injEq] at heq
          exact absurd h (heq.1 ▸ hpre p (List.mem_cons_self _ _))
    · rw [if_neg h, ih]
      constructor
      · rintro ⟨d2, ⟨pre, post, heq, hpre, hd⟩, hr⟩
        refine ⟨d2, ⟨d :: pre, post, by simp [heq], ?_, hd⟩, hr⟩
        intro p hp
        rcases List.mem_cons.mp hp with rfl | hp
        · exact h
        · exact hpre p hp
      · rintro ⟨d2, ⟨pre, post, heq, hpre, hd⟩, hr⟩
        cases pre with
        | nil =>
          simp only [List.nil_append, List.cons.injEq] at heq
          exact absurd (heq.1 ▸ hd) h
        | cons p ps =>
          simp only [List.cons_append, List.cons.injEq] at heq
          exact ⟨d2, ⟨ps, post, heq.2, fun q hq => hpre q (List.mem_cons_of_mem _ hq), hd⟩, hr⟩

/-- The first dish of a given name is unique. -/
theorem firstDishNamed_unique (heap : DishHeap) (n : String) (dishes : List DishPtr)
    (d d2 : DishPtr) (h : FirstDishNamed heap n dishes d)
    (h2 : FirstDishNamed heap n dishes d2) : d = d2 := by
  induction dishes with
  | nil =>
    obtain ⟨pre, post, heq, _, _⟩ := h
    simp at heq
  | cons x xs ih =>
    obtain ⟨pre, post, heq, hpre, hd⟩ := h
    obtain ⟨pre2, post2, heq2, hpre2, hd2⟩ := h2
    cases pre with
    | nil =>
      simp only [List.nil_append, List.cons.injEq] at heq
      cases pre2 with
      | nil =>
        simp only [List.nil_append, List.cons.injEq] at heq2
        rw [← heq.1, ← heq2.1]
      | cons q qs =>
        simp only [List.cons_append, List.cons.injEq] at heq2
        exact absurd (heq.1 ▸ hd) (heq2.1 ▸ hpre2 q (List.mem_cons_self _ _))
    | cons p ps =>
      simp only [List.cons_append, List.cons.injEq] at heq
      cases pre2 with
      | nil =>
        simp only [List.nil_append, List.cons.injEq] at heq2
        exact absurd (heq2.1 ▸ hd2) (heq.1 ▸ hpre p (List.mem_cons_self _ _))
      | cons q qs =>
        simp only [List.cons_append, List.cons.injEq] at heq2
        exact ih ⟨ps, post, heq.2, fun r hr => hpre r (List.mem_cons_of_mem _ hr), hd⟩
          ⟨qs, post2, heq2.2, fun r hr => hpre2 r (List.mem_cons_of_mem _ hr), hd2⟩

/-! ## Lemmas on `prepareDish` -/

theorem sizeInc_of_lt (k : Nat) (h : k + 1 < SIZE_MOD) : sizeInc k = k + 1 := by
  unfold sizeInc; exact Nat.mod_eq_of_lt h

/-- The decrement of line 198 followed by the increment of the loop header gives back
the index, also at `0`, where the decrement wraps around. -/
theorem sizeInc_sizeDec (k : Nat) (h : k < SIZE_MOD) : sizeInc (sizeDec k) = k := by
  unfold sizeInc sizeDec SIZE_MOD at *
  omega

theorem getElem?_append_length (pre rest : List Ingredient) :
    (pre ++ rest)[pre.length]? = rest.head? := by
  induction pre with
  | nil => cases rest <;> simp
  | cons p ps ih => simpa using ih

theorem set_append_length (pre rest : List Ingredient) (e x : Ingredient) :
    (pre ++ e :: rest).set pre.length x = pre ++ x :: rest := by
  simp

theorem eraseIdx_append_length (pre rest : List Ingredient) (e : Ingredient) :
    (pre ++ e :: rest).eraseIdx pre.length = pre ++ rest := by
  induction pre with
  | nil => simp
  | cons p ps ih => simpa using ih

/-- The scan at index `pre.length` of the vector `pre ++ rest` leaves `pre` alone and
treats every entry of `rest` once, provided the bound on the iterations is at least
the number of entries still to visit. -/
theorem stockScan_append (req : Ingredient) :
    ∀ (fuel : Nat) (pre rest : List Ingredient),
      (pre ++ rest).length < SIZE_MOD → rest.length ≤ fuel →
      stockScan req fuel pre.length (pre ++ rest) = pre ++ rest.filterMap (scanEntry req) := by
  intro fuel
  induction fuel with
  | zero =>
    intro pre rest _ hfuel
    have : rest = [] := List.length_eq_zero.mp (Nat.le_zero.mp hfuel)
    subst this
    simp [stockScan]
  | succ fuel ih =>
    intro pre rest hlen hfuel
    cases rest with
    | nil => simp [stockScan]
    | cons e rest =>
      have hlen2 : pre.length + (rest.length + 1) < SIZE_MOD := by
        simpa [List.length_append] using hlen
      have hfuel2 : rest.length ≤ fuel := by simpa using hfuel
      rw [stockScan, getElem?_append_length]
      simp only [List.head?_cons]
      by_cases hname : e.name = req.name
      · rw [if_pos hname]
        by_cases hq : e.quantity - req.required_quantity ≤ 0
        · rw [if_pos hq, sizeInc_sizeDec _ (by omega), set_append_length,
            eraseIdx_append_length, ih pre rest (by simp [List.length_append]; omega) hfuel2]
          simp [List.filterMap_cons, scanEntry, hname, hq]
        · rw [if_neg hq, sizeInc_of_lt _ (by omega), set_append_length]
          have := ih (pre ++ [{ e with quantity := e.quantity - req.required_quantity }]) rest
            (by simp [List.length_append]; omega) hfuel2
          simp only [List.length_append, List.length_singleton, List.append_assoc,
            List.singleton_append] at this
          rw [this]
          simp [List.filterMap_cons, scanEntry, hname, hq]
      · rw [if_neg hname, sizeInc_of_lt _ (by omega)]
        have := ih (pre ++ [e]) rest (by simp [List.length_append]; omega) hfuel2
        simp only [List.length_append, List.length_singleton, List.append_assoc,
          List.singleton_append] at this
        rw [this]
        simp [List.filterMap_cons, scanEntry, hname]

/-- One full scan, as `prepareDish` runs it, treats every stock entry exactly once. -/
theorem stockScan_eq (req : Ingredient) (stock : List Ingredient)
    (h : stock.length < SIZE_MOD) :
    stockScan req stock.length 0 stock = stock.filterMap (scanEntry req) := by
  have := stockScan_append req stock.length [] stock h (le_refl _)
  simpa using this

/-- The `j` loop is the succession of the scans, one per requirement. -/
theorem consumeLoop_eq_foldl (reqs stock : List Ingredient) (h : stock.length < SIZE_MOD) :
    consumeLoop reqs stock = reqs.foldl (fun st req => st.filterMap (scanEntry req)) stock := by
  induction reqs generalizing stock with
  | nil => rfl
  | cons r rs ih =>
    rw [consumeLoop, stockScan_eq r stock h, List.foldl_cons]
    exact ih _ (lt_of_le_of_lt (List.length_filterMap_le _ _) h)

theorem scanEntry_name (req e e2 : Ingredient) (h : scanEntry req e = some e2) :
    e2.name = e.name := by
  unfold scanEntry at h
  split at h
  · split at h
    · cases h
    · cases h; rfl
  · cases h; rfl

/-- A scan for `r` followed by the spec's account for requirements `rs`, none of which
is named as `r`, is the spec's account for `r :: rs`. -/
theorem scanEntry_bind_specConsume (r : Ingredient) (rs : List Ingredient)
    (hr : r.name ∉ names rs) (e : Ingredient) :
    (scanEntry r e).bind (specConsume rs) = specConsume (r :: rs) e := by
  by_cases hname : e.name = r.name
  · have hfind : rs.find? (fun x => decide (x.name = r.name)) = none := by
      rw [List.find?_eq_none]
      intro x hx hxe
      exact hr (by
        have : x.name = r.name := by simpa using hxe
        exact this ▸ List.mem_map_of_mem _ hx)
    by_cases hq : e.quantity - r.required_quantity ≤ 0
    · simp [scanEntry, specConsume, hname, hq]
    · simp [scanEntry, specConsume, hname, hq, hfind]
  · have hne : ¬ r.name = e.name := fun h => hname h.symm
    simp [scanEntry, specConsume, hname, hne]

theorem specConsume_nil (e : Ingredient) : specConsume [] e = some e := by
  simp [specConsume]

/-- For requirements of pairwise distinct names the `j` loop does to every stock entry
what the spec says. -/
theorem consumeLoop_eq (reqs stock : List Ingredient) (hnd : (names reqs).Nodup)
    (h : stock.length < SIZE_MOD) :
    consumeLoop reqs stock = stock.filterMap (specConsume reqs) := by
  induction reqs generalizing stock with
  | nil =>
    rw [consumeLoop]
    have : specConsume [] = some := funext specConsume_nil
    rw [this, List.filterMap_some]
  | cons r rs ih =>
    have hnd2 : r.name ∉ names rs ∧ (names rs).Nodup := by
      simpa [names] using hnd
    rw [consumeLoop, stockScan_eq r stock h,
      ih _ hnd2.2 (lt_of_le_of_lt (List.length_filterMap_le _ _) h), List.filterMap_filterMap]
    congr 1
    funext e
    exact scanEntry_bind_specConsume r rs hnd2.1 e

/-- The `i` loop reaches the first dish of the given name and consumes for it. -/
theorem prepareLoop_first (heap : DishHeap) (n : String) (dishes : List DishPtr)
    (stock : List Ingredient) (d : DishPtr) (hd : FirstDishNamed heap n dishes d) :
    prepareLoop heap n dishes stock = (true, consumeLoop (heap d).ingredients stock) := by
  obtain ⟨pre, post, heq, hpre, hname⟩ := hd
  subst heq
  induction pre with
  | nil => simp [prepareLoop, hname]
  | cons p ps ih =>
    have hp : (heap p).name ≠ n := hpre p (List.mem_cons_self _ _)
    simp only [List.cons_append, prepareLoop, if_neg hp]
    exact ih (fun q hq => hpre q (List.mem_cons_of_mem _ hq))

end KitchenStation

/-! ## Claims on the station -/

namespace KitchenStation

/-- Claim C1. `canCompleteOrder(n)` returns true exactly when some assigned dish is
named `n` and every requirement of the first such dish, in assignment order, has a
stock entry of its name holding at least the required quantity. In particular it is
false when no assigned dish is named `n`, and false when one requirement of that first
dish has no such stock entry, whatever else the stock or the later dishes are. -/
theorem canCompleteOrder_iff_first_dish (heap : DishHeap) (s : KitchenStation)
    (n : String) :
    (canCompleteOrder heap s n = true ↔
      ∃ d, FirstDishNamed heap n s.dishes_ d ∧
        ∀ req ∈ (heap d).ingredients, InStock s.ingredients_stock_ req) ∧
    ((∀ d ∈ s.dishes_, (heap d).name ≠ n) → canCompleteOrder heap s n = false) ∧
    (∀ d req, FirstDishNamed heap n s.dishes_ d → req ∈ (heap d).ingredients →
      ¬ InStock s.ingredients_stock_ req → canCompleteOrder heap s n = false) := by
  refine ⟨canCompleteLoop_iff heap _ n _, ?_, ?_⟩
  · intro hno
    rw [← Bool.not_eq_true]
    intro hc
    obtain ⟨d, ⟨pre, post, heq, _, hd⟩, _⟩ := (canCompleteLoop_iff heap _ n _).mp hc
    exact hno d (by rw [heq]; simp) hd
  · intro d req hd hreq hnot
    rw [← Bool.not_eq_true]
    intro hc
    obtain ⟨d2, hd2, hall⟩ := (canCompleteLoop_iff heap _ n _).mp hc
    have : d = d2 := firstDishNamed_unique heap n _ d d2 hd hd2
    subst this
    exact hnot (hall req hreq)

/-- Claim C1 at a station with two dishes named "Cake", the first one asking for flour
that the stock lacks, the second one asking for nothing: the answer is false. -/
theorem canCompleteOrder_iff_first_dish_witness :
    canCompleteOrder Scenario.twoCakes Scenario.sugarOnly "Cake" = false :=
  (canCompleteOrder_iff_first_dish Scenario.twoCakes Scenario.sugarOnly "Cake").2.2
    1 Scenario.i1 ⟨[], [2], rfl, by simp, rfl⟩ (by simp [Scenario.twoCakes]) (by
      rintro ⟨e, he, hname, _⟩
      simp only [Scenario.sugarOnly, List.mem_singleton] at he
      subst he
      revert hname
      decide)

/-- Claim C2. When `canCompleteOrder(n)` is false, `prepareDish(n)` returns false and
the station is exactly as before: same name, same dish list, same stock. -/
theorem prepareDish_refused (heap : DishHeap) (s : KitchenStation) (n : String)
    (h : canCompleteOrder heap s n = false) : prepareDish heap s n = (false, s) := by
  simp [prepareDish, h]

/-- Claim C2 at a station that has enough flour but not enough sugar for the cake:
nothing is consumed, the flour included. -/
theorem prepareDish_refused_witness :
    canCompleteOrder Scenario.dishes Scenario.shortOfSugar "Cake" = false ∧
      prepareDish Scenario.dishes Scenario.shortOfSugar "Cake" =
        (false, Scenario.shortOfSugar) :=
  ⟨by decide, prepareDish_refused _ _ _ (by decide)⟩

/-- Claim C3. When `canCompleteOrder(n)` is true and the first dish named `n` has
requirements of pairwise distinct names, `prepareDish(n)` returns true; the new stock
is the old stock, in its order, where every entry named by a requirement has that
requirement's quantity subtracted and is dropped exactly when the result is `<= 0`,
and every other entry is as before; name and dish list are unchanged. The stock is a
vector, of fewer than `2 ^ 64` entries; that its names are pairwise distinct, as the
claim supposes, is not needed. -/
theorem prepareDish_consumes (heap : DishHeap) (s : KitchenStation) (n : String)
    (d : DishPtr) (hsize : s.ingredients_stock_.length < SIZE_MOD)
    (hcan : canCompleteOrder heap s n = true)
    (hfirst : FirstDishNamed heap n s.dishes_ d)
    (hreqs : (names (heap d).ingredients).Nodup) :
    prepareDish heap s n =
      (true, { s with ingredients_stock_ :=
        s.ingredients_stock_.filterMap (specConsume (heap d).ingredients) }) := by
  simp only [prepareDish, hcan, if_true]
  rw [prepareLoop_first heap n _ _ d hfirst, consumeLoop_eq _ _ hreqs hsize]

/-- Claim C3 at the station `pantry`: flour and butter are used up and dropped, sugar
and eggs are reduced, salt is untouched, in the order of the old stock. -/
theorem prepareDish_consumes_witness :
    Scenario.pantry.ingredients_stock_.length < SIZE_MOD ∧
    canCompleteOrder Scenario.dishes Scenario.pantry "Cake" = true ∧
    FirstDishNamed Scenario.dishes "Cake" Scenario.pantry.dishes_ Scenario.d1 ∧
    (names (Scenario.dishes Scenario.d1).ingredients).Nodup ∧
    prepareDish Scenario.dishes Scenario.pantry "Cake" =
      (true, { station_name_ := "P", dishes_ := [Scenario.d1],
               ingredients_stock_ :=
                [{ name := "salt", quantity := 1, required_quantity := 0, price := 99 },
                 { name := "sugar", quantity := 15, required_quantity := 0, price := 399 },
                 { name := "eggs", quantity := 8, required_quantity := 0, price := 499 }] }) :=
  ⟨by decide, by decide, ⟨[], [], rfl, by simp, rfl⟩, by decide,
    (prepareDish_consumes Scenario.dishes Scenario.pantry "Cake" Scenario.d1 (by decide)
      (by decide) ⟨[], [], rfl, by simp, rfl⟩ (by decide)).trans (by decide)⟩

/-- Every call of `replenishStationIngredients` makes the stock one entry longer,
whether or not the name was stocked before. -/
theorem replenish_length (s : KitchenStation) (i : Ingredient) :
    (replenishStationIngredients s i).ingredients_stock_.length =
      s.ingredients_stock_.length + 1 := by
  have h : ∀ l : List Ingredient, (replenishLoop i l).length = l.length := by
    intro l
    induction l with
    | nil => rfl
    | cons e es ih => simp [replenishLoop, ih]
  simp [replenishStationIngredients, h]

/-- Claim C4, the code at a failing input. A station that stocks 10 of flour is
replenished with 10 of flour: the entry goes to 20 and keeps its price, and a second
entry for flour is appended, so the stock has two entries instead of one. The same
stock results from replenishing a station without flour twice. -/
theorem replenish_existing_appends_entry :
    (replenishStationIngredients Scenario.flourOnly Scenario.i1).ingredients_stock_ =
      [{ name := "flour", quantity := 20, required_quantity := 5, price := 699 },
       { name := "flour", quantity := 10, required_quantity := 5, price := 699 }] ∧
    (replenishStationIngredients Scenario.flourOnly Scenario.i1).ingredients_stock_.length
      ≠ Scenario.flourOnly.ingredients_stock_.length ∧
    (replenishStationIngredients
        (replenishStationIngredients (KitchenStation.new "F") Scenario.i1)
        Scenario.i1).ingredients_stock_ =
      [{ name := "flour", quantity := 20, required_quantity := 5, price := 699 },
       { name := "flour", quantity := 10, required_quantity := 5, price := 699 }] := by
  decide

/-- Claim C5, the code at a failing input. The stock of `flourOnly` has pairwise
distinct names; after `replenishStationIngredients` with flour it has two entries named
"flour". -/
theorem replenish_breaks_distinct_names :
    (names Scenario.flourOnly.ingredients_stock_).Nodup ∧
    ¬ (names
        (replenishStationIngredients Scenario.flourOnly Scenario.i1).ingredients_stock_).Nodup := by
  decide

/-- The names left by one scan are names of the old stock, in the same order. -/
theorem names_filterMap_scanEntry (req : Ingredient) (stock : List Ingredient) :
    (names (stock.filterMap (scanEntry req))).Sublist (names stock) := by
  induction stock with
  | nil => simp [names]
  | cons e es ih =>
    rw [List.filterMap_cons]
    cases hsc : scanEntry req e with
    | none => exact ih.trans (List.sublist_cons_self _ _)
    | some e2 =>
      have hn : e2.name = e.name := scanEntry_name req e e2 hsc
      simp only [names, List.map_cons, hn]
      exact List.Sublist.cons₂ _ ih

/-- The other two mutators keep the stock names pairwise distinct: `prepareDish` only
reduces or drops entries, and `assignDishToStation` does not touch the stock. -/
theorem prepare_assign_keep_distinct_names (heap : DishHeap) (s : KitchenStation)
    (n : String) (d : DishPtr) (hsize : s.ingredients_stock_.length < SIZE_MOD)
    (hnd : (names s.ingredients_stock_).Nodup) :
    (names (prepareDish heap s n).2.ingredients_stock_).Nodup ∧
    (names (assignDishToStation s d).2.ingredients_stock_).Nodup := by
  constructor
  · have hfold : ∀ (reqs stock : List Ingredient),
        (names (reqs.foldl (fun st req => st.filterMap (scanEntry req)) stock)).Sublist
          (names stock) := by
      intro reqs
      induction reqs with
      | nil => intro stock; exact List.Sublist.refl _
      | cons r rs ih =>
        intro stock
        exact (ih _).trans (names_filterMap_scanEntry r stock)
    have hloop : ∀ dishes : List DishPtr,
        (names (prepareLoop heap n dishes s.ingredients_stock_).2).Sublist
          (names s.ingredients_stock_) := by
      intro dishes
      induction dishes with
      | nil => exact List.Sublist.refl _
      | cons p ps ih =>
        simp only [prepareLoop]
        split
        · rw [consumeLoop_eq_foldl _ _ hsize]
          exact hfold _ _
        · exact ih
    unfold prepareDish
    split
    · exact (hloop _).nodup hnd
    · exact hnd
  · unfold assignDishToStation
    split <;> exact hnd

theorem dishPresent_iff (dish : DishPtr) (dishes : List DishPtr) :
    dishPresent dish dishes = true ↔ dish ∈ dishes := by
  induction dishes with
  | nil => simp [dishPresent]
  | cons d ds ih =>
    simp only [dishPresent, List.mem_cons]
    by_cases h : d = dish
    · simp [h]
    · rw [if_neg h, ih]
      constructor
      · exact Or.inr
      · rintro (h2 | h2)
        · exact absurd h2.symm h
        · exact h2

/-- Claim C6. A pointer that is not in the dish list is appended at its end and true
is returned; for one that is in the list false is returned and the station is
unchanged. So a second assignment of the same pointer returns false and changes
nothing, a station without repeated pointers holds the pointer exactly once afterwards,
and two different dish objects of one name are both accepted. -/
theorem assignDishToStation_by_identity (heap : DishHeap) (s : KitchenStation)
    (d : DishPtr) :
    (d ∉ s.dishes_ →
      assignDishToStation s d = (true, { s with dishes_ := s.dishes_ ++ [d] })) ∧
    (d ∈ s.dishes_ → assignDishToStation s d = (false, s)) ∧
    assignDishToStation (assignDishToStation s d).2 d = (false, (assignDishToStation s d).2) ∧
    (s.dishes_.Nodup → (assignDishToStation s d).2.dishes_.count d = 1) ∧
    (∀ d2 : DishPtr, d2 ≠ d → (heap d2).name = (heap d).name → d ∉ s.dishes_ →
      d2 ∉ s.dishes_ →
      assignDishToStation (assignDishToStation s d).2 d2 =
        (true, { s with dishes_ := s.dishes_ ++ [d, d2] })) := by
  have habsent : d ∉ s.dishes_ →
      assignDishToStation s d = (true, { s with dishes_ := s.dishes_ ++ [d] }) := by
    intro h
    have : ¬ dishPresent d s.dishes_ = true := fun hp => h ((dishPresent_iff d _).mp hp)
    simp [assignDishToStation, this]
  have hpresent : ∀ t : KitchenStation, d ∈ t.dishes_ → assignDishToStation t d = (false, t) := by
    intro t h
    simp [assignDishToStation, (dishPresent_iff d _).mpr h]
  refine ⟨habsent, hpresent s, ?_, ?_, ?_⟩
  · apply hpresent
    by_cases h : d ∈ s.dishes_
    · rw [hpresent s h]; exact h
    · rw [habsent h]; simp
  · intro hnd
    by_cases h : d ∈ s.dishes_
    · rw [hpresent s h]
      exact List.count_eq_one_of_mem hnd h
    · rw [habsent h]
      simp [List.count_append, List.count_eq_zero_of_not_mem h]
  · intro d2 hne _ h h2
    rw [habsent h]
    have : ¬ dishPresent d2 (s.dishes_ ++ [d]) = true := by
      rw [dishPresent_iff]
      simp [h2, hne]
    simp [assignDishToStation, this]

/-- Claim C6 at the first station of `main.cpp`, which holds the dish at `d1`: the
pointer `d1` is refused, the pointer `d2` is appended. -/
theorem assignDishToStation_by_identity_witness :
    assignDishToStation Scenario.station1 Scenario.d1 = (false, Scenario.station1) ∧
    assignDishToStation Scenario.station1 Scenario.d2 =
      (true, { Scenario.station1 with dishes_ := [Scenario.d1, Scenario.d2] }) :=
  ⟨(assignDishToStation_by_identity Scenario.dishes Scenario.station1 Scenario.d1).2.1
      (by decide),
    (assignDishToStation_by_identity Scenario.dishes Scenario.station1 Scenario.d2).1
      (by decide)⟩

end KitchenStation

/-! ## Lemmas on the station manager -/

namespace StationManager

theorem firstIndex_eq_none_iff (name : String) (l : List KitchenStation) (i : Nat) :
    firstIndex name l i = none ↔ ∀ t ∈ l, t.getName ≠ name := by
  induction l generalizing i with
  | nil => simp [firstIndex]
  | cons s ss ih =>
    simp only [firstIndex, List.forall_mem_cons]
    by_cases h : s.getName = name
    · simp [h]
    · rw [if_neg h, ih]
      simp [h]

theorem insert_at_end (m : StationManager) (s : KitchenStation) :
    m.insert m.getLength s = (true, { items := m.items ++ [s] }) := by
  simp [LinkedList.insert, LinkedList.getLength]

/-- Whenever the station is found, `prepareDishAtStation` returns true, whatever the
station's `prepareDish` returned. -/
theorem prepareDishAtStation_found (heap : DishHeap) (m : StationManager)
    (station_name dish_name : String) (station : KitchenStation)
    (h : findStation m station_name = some station) :
    (prepareDishAtStation heap m station_name dish_name).1 = true := by
  simp [prepareDishAtStation, h]

/-- Whenever the station is found, the manager's `assignDishToStation` returns true,
whatever the station's `assignDishToStation` returned. -/
theorem assignDishToStation_found (m : StationManager) (station_name : String)
    (dish : DishPtr) (station : KitchenStation)
    (h : findStation m station_name = some station) :
    (assignDishToStation m station_name dish).1 = true := by
  simp [assignDishToStation, h]

/-- The two loops of `mergeStations` leave the first station as it was. -/
theorem mergeLoops_id (station1 : KitchenStation) (ds : List DishPtr)
    (es : List Ingredient) :
    mergeStockLoop (mergeDishesLoop station1 ds) es = station1 := by
  have h1 : ∀ l : List DishPtr, mergeDishesLoop station1 l = station1 := by
    intro l
    induction l with
    | nil => rfl
    | cons d ds ih => simpa [mergeDishesLoop] using ih
  have h2 : ∀ l : List Ingredient, mergeStockLoop station1 l = station1 := by
    intro l
    induction l with
    | nil => rfl
    | cons e es ih => simpa [mergeStockLoop] using ih
  rw [h1, h2]

theorem firstIndex_succ (name : String) (l : List KitchenStation) (i : Nat) :
    firstIndex name l (i + 1) = (firstIndex name l i).map (fun k => k + 1) := by
  induction l generalizing i with
  | nil => rfl
  | cons s ss ih =>
    simp only [firstIndex]
    split
    · rfl
    · exact ih (i + 1)

/-- The scan finds a position inside the list, and the station there has the name. -/
theorem firstIndex_some (name : String) (l : List KitchenStation) (i : Nat)
    (h : firstIndex name l 0 = some i) : i < l.length := by
  induction l generalizing i with
  | nil => simp [firstIndex] at h
  | cons s ss ih =>
    simp only [firstIndex] at h
    split at h
    · cases h; simp
    · rw [firstIndex_succ] at h
      cases hfi : firstIndex name ss 0 with
      | none => simp [hfi] at h
      | some j =>
        simp [hfi] at h
        subst h
        simpa using ih j hfi

theorem findStation_cons (s : KitchenStation) (ss : List KitchenStation) (name : String) :
    findStation { items := s :: ss } name =
      if s.getName = name then some s else findStation { items := ss } name := by
  unfold findStation
  simp only [firstIndex]
  by_cases h : s.getName = name
  · simp [h, LinkedList.getEntry]
  · rw [if_neg h, if_neg h, firstIndex_succ]
    cases firstIndex name ss 0 with
    | none => rfl
    | some j => simp [LinkedList.getEntry]

theorem removeStation_cons (s : KitchenStation) (ss : List KitchenStation) (name : String) :
    removeStation { items := s :: ss } name =
      if s.getName = name then (true, { items := ss })
      else ((removeStation { items := ss } name).1,
        { items := s :: (removeStation { items := ss } name).2.items }) := by
  unfold removeStation
  simp only [firstIndex]
  by_cases h : s.getName = name
  · simp [h, LinkedList.remove]
  · rw [if_neg h, if_neg h, firstIndex_succ]
    cases hfi : firstIndex name ss 0 with
    | none => rfl
    | some j =>
      have hj := firstIndex_some name ss j hfi
      simp [LinkedList.remove, hj]

theorem storeStation_self (name : String) (station : KitchenStation)
    (l : List KitchenStation) (h : findStation { items := l } name = some station) :
    storeStation name station l = l := by
  induction l with
  | nil => rfl
  | cons s ss ih =>
    rw [findStation_cons] at h
    simp only [storeStation]
    by_cases hn : s.getName = name
    · rw [if_pos hn] at h
      cases h
      rw [if_pos hn]
    · rw [if_neg hn] at h
      rw [if_neg hn, ih h]

theorem mergeStations_found (m : StationManager) (name1 name2 : String)
    (station1 station2 : KitchenStation) (h1 : findStation m name1 = some station1)
    (h2 : findStation m name2 = some station2) :
    mergeStations m name1 name2 = (true, (removeStation m name2).2) := by
  unfold mergeStations
  rw [h1, h2]
  simp only [mergeLoops_id]
  rw [storeStation_self name1 station1 m.items h1]

theorem findStation_removeStation_of_ne (m : StationManager) (name1 name2 : String)
    (hne : name1 ≠ name2) :
    findStation (removeStation m name2).2 name1 = findStation m name1 := by
  obtain ⟨l⟩ := m
  induction l with
  | nil => rfl
  | cons s ss ih =>
    rw [removeStation_cons]
    by_cases h2 : s.getName = name2
    · rw [if_pos h2, findStation_cons, if_neg (fun h => hne (h.symm.trans h2))]
    · rw [if_neg h2]
      simp only [findStation_cons]
      rw [ih]

/-- After a merge that succeeds, the first station is found as it was before: nothing
of the second station has come into it. -/
theorem mergeStations_first_unchanged (m : StationManager) (name1 name2 : String)
    (station1 station2 : KitchenStation) (hne : name1 ≠ name2)
    (h1 : findStation m name1 = some station1) (h2 : findStation m name2 = some station2) :
    findStation (mergeStations m name1 name2).2 name1 = some station1 := by
  rw [mergeStations_found m name1 name2 station1 station2 h1 h2,
    findStation_removeStation_of_ne m name1 name2 hne, h1]

/-! ## Claims on the station manager -/

/-- Claim C7, the code at a failing input. In `twoStations`, `mergeStations("A", "B")`
returns true and removes "B", and station "A" is left with its own dish and its own
stock only: one dish and not two, one stock entry and not three. -/
theorem mergeStations_drops_contents :
    mergeStations Scenario.twoStations "A" "B" =
      (true, { items :=
        [{ station_name_ := "A", dishes_ := [Scenario.d1],
           ingredients_stock_ := [Scenario.i1] }] }) ∧
    (findStation (mergeStations Scenario.twoStations "A" "B").2 "A").map
        (fun a => a.getDishes) ≠ some [Scenario.d1, Scenario.d2] ∧
    (findStation (mergeStations Scenario.twoStations "A" "B").2 "A").map
        (fun a => a.getIngredientsStock) ≠ some [Scenario.i1, Scenario.i1, Scenario.i2] := by
  decide

/-- Claim C8, the code at a failing input. In the manager of `main.cpp`, "Station 2" is
assigned "Pasta" and has no stock: its `prepareDish("Pasta")` returns false, and
`prepareDishAtStation("Station 2", "Pasta")` returns true. -/
theorem prepareDishAtStation_discards_result :
    (findStation Scenario.kitchen "Station 2").map
        (fun st => (st.prepareDish Scenario.dishes "Pasta").1) = some false ∧
    (prepareDishAtStation Scenario.dishes Scenario.kitchen "Station 2" "Pasta").1 = true := by
  decide

/-- Claim C9, the code at a failing input. In the manager of `main.cpp`, "Station 1"
already holds the dish at `d1`: its `assignDishToStation(d1)` returns false, and the
manager's `assignDishToStation("Station 1", d1)` returns true. -/
theorem assignDishToStation_discards_result :
    (findStation Scenario.kitchen "Station 1").map
        (fun st => (st.assignDishToStation Scenario.d1).1) = some false ∧
    (assignDishToStation Scenario.kitchen "Station 1" Scenario.d1).1 = true := by
  decide

/-- Claim C10. When a station of the manager has the name of `s`, `addStation(s)`
returns false and the sequence is unchanged; otherwise it returns true and the new
sequence is the old one with `s` appended at the end. -/
theorem addStation_unique_name (m : StationManager) (s : KitchenStation) :
    ((∃ t ∈ m.items, t.getName = s.getName) → addStation m s = (false, m)) ∧
    ((∀ t ∈ m.items, t.getName ≠ s.getName) →
      addStation m s = (true, { items := m.items ++ [s] })) := by
  constructor
  · rintro ⟨t, ht, hname⟩
    unfold addStation
    cases hfi : firstIndex s.getName m.items 0 with
    | none => exact absurd hname ((firstIndex_eq_none_iff _ _ _).mp hfi t ht)
    | some i => rfl
  · intro hall
    unfold addStation
    rw [(firstIndex_eq_none_iff _ _ _).mpr hall]
    exact insert_at_end m s

/-- Claim C10 on the manager of `main.cpp`: a second "Station 1" is refused, a
"Station 3" is appended after the two stations. -/
theorem addStation_unique_name_witness :
    addStation Scenario.kitchen (KitchenStation.new "Station 1") =
      (false, Scenario.kitchen) ∧
    addStation Scenario.kitchen (KitchenStation.new "Station 3") =
      (true, { items := Scenario.kitchen.items ++ [KitchenStation.new "Station 3"] }) :=
  ⟨(addStation_unique_name Scenario.kitchen (KitchenStation.new "Station 1")).1
      ⟨Scenario.station1, by decide, by decide⟩,
    (addStation_unique_name Scenario.kitchen (KitchenStation.new "Station 3")).2
      (by decide)⟩

end StationManager

/-! ## Further lemmas on the station manager -/

namespace StationManager

theorem getEntry_append_length (done rest : List KitchenStation) :
    LinkedList.getEntry { items := done ++ rest } done.length = rest.head? := by
  unfold LinkedList.getEntry
  induction done with
  | nil => cases rest <;> simp
  | cons p ps ih => simpa using ih

theorem remove_append_length (done rest : List KitchenStation) (s : KitchenStation) :
    LinkedList.remove { items := done ++ s :: rest } done.length =
      (true, { items := done ++ rest }) := by
  have h : (done ++ s :: rest).eraseIdx done.length = done ++ rest := by
    induction done with
    | nil => simp
    | cons p ps ih => simpa using ih
  simp [LinkedList.remove, h]

/-- From a position after which no station has the name, the loop changes nothing. -/
theorem moveLoop_no_match (name : String) :
    ∀ (rest done : List KitchenStation) (fuel : Nat),
      (∀ t ∈ rest, t.getName ≠ name) →
      moveLoop name fuel done.length { items := done ++ rest } = { items := done ++ rest } := by
  intro rest
  induction rest with
  | nil =>
    intro done fuel _
    cases fuel with
    | zero => rfl
    | succ fuel => rw [moveLoop, getEntry_append_length]; rfl
  | cons x xs ih =>
    intro done fuel hno
    cases fuel with
    | zero => rfl
    | succ fuel =>
      rw [moveLoop, getEntry_append_length]
      simp only [List.head?_cons]
      rw [if_neg (hno x (List.mem_cons_self _ _))]
      have := ih (done ++ [x]) fuel (fun t ht => hno t (List.mem_cons_of_mem _ ht))
      simpa using this

/-- The loop removes the one station of the name and keeps the others in order. -/
theorem moveLoop_single (name : String) (s : KitchenStation) (post : List KitchenStation)
    (hs : s.getName = name) (hpost : ∀ t ∈ post, t.getName ≠ name) :
    ∀ (pre done : List KitchenStation) (fuel : Nat),
      (∀ t ∈ pre, t.getName ≠ name) → pre.length < fuel →
      moveLoop name fuel done.length { items := done ++ (pre ++ s :: post) } =
        { items := done ++ (pre ++ post) } := by
  intro pre
  induction pre with
  | nil =>
    intro done fuel _ hfuel
    cases fuel with
    | zero => simp at hfuel
    | succ fuel =>
      rw [moveLoop]
      simp only [List.nil_append]
      rw [getEntry_append_length]
      simp only [List.head?_cons]
      rw [if_pos hs, remove_append_length]
      cases post with
      | nil =>
        cases fuel with
        | zero => rfl
        | succ fuel =>
          have hnone : done[done.length + 1]? = none :=
            List.getElem?_eq_none (Nat.le_succ _)
          rw [moveLoop]
          simp [LinkedList.getEntry, hnone]
      | cons x xs =>
        have := moveLoop_no_match name xs (done ++ [x]) fuel
          (fun t ht => hpost t (List.mem_cons_of_mem _ ht))
        simpa using this
  | cons p ps ih =>
    intro done fuel hpre hfuel
    cases fuel with
    | zero => simp at hfuel
    | succ fuel =>
      rw [moveLoop]
      simp only [List.cons_append]
      rw [getEntry_append_length]
      simp only [List.head?_cons]
      rw [if_neg (hpre p (List.mem_cons_self _ _))]
      have := ih (done ++ [p]) fuel (fun t ht => hpre t (List.mem_cons_of_mem _ ht))
        (by simpa using hfuel)
      simpa using this

theorem findStation_eq_none_iff (m : StationManager) (name : String) :
    findStation m name = none ↔ ∀ t ∈ m.items, t.getName ≠ name := by
  obtain ⟨l⟩ := m
  induction l with
  | nil => simp [findStation, firstIndex]
  | cons s ss ih =>
    rw [findStation_cons]
    by_cases h : s.getName = name
    · simp [h]
    · rw [if_neg h, ih]
      simp [h]

theorem findStation_first (name : String) (s : KitchenStation)
    (pre post : List KitchenStation) (hpre : ∀ t ∈ pre, t.getName ≠ name)
    (hs : s.getName = name) :
    findStation { items := pre ++ s :: post } name = some s := by
  induction pre with
  | nil => rw [List.nil_append, findStation_cons, if_pos hs]
  | cons p ps ih =>
    rw [List.cons_append, findStation_cons, if_neg (hpre p (List.mem_cons_self _ _))]
    exact ih (fun t ht => hpre t (List.mem_cons_of_mem _ ht))

/-- A station that is found is the first of its name in the sequence. -/
theorem findStation_some_split (l : List KitchenStation) (name : String)
    (s : KitchenStation) (h : findStation { items := l } name = some s) :
    ∃ pre post, l = pre ++ s :: post ∧ (∀ t ∈ pre, t.getName ≠ name) ∧ s.getName = name := by
  induction l with
  | nil => simp [findStation, firstIndex] at h
  | cons x xs ih =>
    rw [findStation_cons] at h
    by_cases hx : x.getName = name
    · rw [if_pos hx] at h
      cases h
      exact ⟨[], xs, rfl, by simp, hx⟩
    · rw [if_neg hx] at h
      obtain ⟨pre, post, heq, hpre, hs⟩ := ih h
      refine ⟨x :: pre, post, by simp [heq], ?_, hs⟩
      intro t ht
      rcases List.mem_cons.mp ht with rfl | ht
      · exact hx
      · exact hpre t ht

/-- In a sequence of pairwise distinct names, no station after one named `name` has
that name. -/
theorem nodup_after (name : String) (s : KitchenStation) (pre post : List KitchenStation)
    (hnd : (stationNames (pre ++ s :: post)).Nodup) (hs : s.getName = name) :
    ∀ t ∈ post, t.getName ≠ name := by
  intro t ht hname
  have h1 : (stationNames (s :: post)).Nodup := by
    have : (stationNames pre ++ stationNames (s :: post)).Nodup := by
      simpa [stationNames] using hnd
    exact (List.nodup_append.mp this).2.1
  have h2 : s.getName ∉ stationNames post := by
    simpa [stationNames] using (List.nodup_cons.mp h1).1
  exact h2 (by
    rw [hs, ← hname]
    exact List.mem_map_of_mem _ ht)

theorem moveStationToFront_first (m : StationManager) (name : String)
    (s : KitchenStation) (pre post : List KitchenStation)
    (hnd : (stationNames m.items).Nodup) (hitems : m.items = pre ++ s :: post)
    (hpre : ∀ t ∈ pre, t.getName ≠ name) (hs : s.getName = name) :
    moveStationToFront m name = (true, { items := s :: (pre ++ post) }) := by
  obtain ⟨l⟩ := m
  simp only at hitems hnd
  subst hitems
  have hpost := nodup_after name s pre post hnd hs
  unfold moveStationToFront
  rw [findStation_first name s pre post hpre hs]
  have := moveLoop_single name s post hs hpost pre [] (pre ++ s :: post).length hpre
    (by simp)
  simp only [List.nil_append, List.length_nil] at this
  simp only [LinkedList.getLength]
  rw [this]
  simp [LinkedList.insert]

theorem nodup_before (name : String) (s : KitchenStation) (pre post : List KitchenStation)
    (hnd : (stationNames (pre ++ s :: post)).Nodup) (hs : s.getName = name) :
    ∀ t ∈ pre, t.getName ≠ name := by
  intro t ht hname
  have : (stationNames pre ++ stationNames (s :: post)).Nodup := by
    simpa [stationNames] using hnd
  have hdis := (List.nodup_append.mp this).2.2
  exact hdis (List.mem_map_of_mem _ ht) (by
    rw [hname, ← hs]
    simp [stationNames])

theorem removeStation_first (name : String) (s : KitchenStation)
    (pre post : List KitchenStation) (hpre : ∀ t ∈ pre, t.getName ≠ name)
    (hs : s.getName = name) :
    removeStation { items := pre ++ s :: post } name = (true, { items := pre ++ post }) := by
  induction pre with
  | nil => rw [List.nil_append, removeStation_cons, if_pos hs]; rfl
  | cons p ps ih =>
    rw [List.cons_append, removeStation_cons, if_neg (hpre p (List.mem_cons_self _ _)),
      ih (fun t ht => hpre t (List.mem_cons_of_mem _ ht))]
    rfl

theorem removeStation_absent (m : StationManager) (name : String)
    (h : ∀ t ∈ m.items, t.getName ≠ name) : removeStation m name = (false, m) := by
  unfold removeStation
  rw [(firstIndex_eq_none_iff name m.items 0).mpr h]

/-! ## Claims on the order of the stations -/

/-- Claim C11. In a manager whose station names are pairwise distinct:
`moveStationToFront(n)` returns false and changes nothing when no station is named `n`;
otherwise it returns true, the station named `n` is at position 0, the other stations
follow in their old relative order, and the length is the same. -/
theorem moveStationToFront_distinct_names (m : StationManager) (n : String)
    (hnd : (stationNames m.items).Nodup) :
    ((∀ t ∈ m.items, t.getName ≠ n) → moveStationToFront m n = (false, m)) ∧
    (∀ (s : KitchenStation) (pre post : List KitchenStation),
      m.items = pre ++ s :: post → s.getName = n →
        moveStationToFront m n = (true, { items := s :: (pre ++ post) }) ∧
        (moveStationToFront m n).2.getEntry 0 = some s ∧
        (moveStationToFront m n).2.getLength = m.getLength) := by
  constructor
  · intro hno
    unfold moveStationToFront
    rw [(findStation_eq_none_iff m n).mpr hno]
  · intro s pre post hitems hs
    have hpre : ∀ t ∈ pre, t.getName ≠ n := nodup_before n s pre post (hitems ▸ hnd) hs
    have hres := moveStationToFront_first m n s pre post hnd hitems hpre hs
    rw [hres]
    refine ⟨rfl, by simp [LinkedList.getEntry], ?_⟩
    simp only [LinkedList.getLength, hitems, List.length_cons, List.length_append]
    omega

/-- Claim C11 on three stations "A", "B", "C": moving "C" gives "C", "A", "B", and
moving an unknown name changes nothing. -/
theorem moveStationToFront_distinct_names_witness :
    (stationNames Scenario.threeStations.items).Nodup ∧
    moveStationToFront Scenario.threeStations "D" = (false, Scenario.threeStations) ∧
    moveStationToFront Scenario.threeStations "C" =
      (true, { items :=
        [KitchenStation.new "C", KitchenStation.new "A", KitchenStation.new "B"] }) :=
  ⟨by decide,
    (moveStationToFront_distinct_names Scenario.threeStations "D" (by decide)).1 (by decide),
    ((moveStationToFront_distinct_names Scenario.threeStations "C" (by decide)).2
      (KitchenStation.new "C") [KitchenStation.new "A", KitchenStation.new "B"] []
      rfl rfl).1⟩

/-- Claim C12. `removeStation(n)` returns false and changes nothing when no station is
named `n`; otherwise it returns true and the new sequence is the old one without the
first station named `n`, the others in their old order, so one station shorter. -/
theorem removeStation_first_match (m : StationManager) (n : String) :
    ((∀ t ∈ m.items, t.getName ≠ n) → removeStation m n = (false, m)) ∧
    (∀ (s : KitchenStation) (pre post : List KitchenStation),
      m.items = pre ++ s :: post → (∀ t ∈ pre, t.getName ≠ n) → s.getName = n →
        removeStation m n = (true, { items := pre ++ post }) ∧
        (removeStation m n).2.getLength + 1 = m.getLength) := by
  constructor
  · exact removeStation_absent m n
  · intro s pre post hitems hpre hs
    obtain ⟨l⟩ := m
    simp only at hitems
    subst hitems
    rw [removeStation_first n s pre post hpre hs]
    refine ⟨rfl, ?_⟩
    simp only [LinkedList.getLength, List.length_cons, List.length_append]
    omega

/-- Claim C12 on three stations "A", "B", "C": removing "B" leaves "A", "C", and
removing an unknown name changes nothing. -/
theorem removeStation_first_match_witness :
    removeStation Scenario.threeStations "D" = (false, Scenario.threeStations) ∧
    removeStation Scenario.threeStations "B" =
      (true, { items := [KitchenStation.new "A", KitchenStation.new "C"] }) :=
  ⟨(removeStation_first_match Scenario.threeStations "D").1 (by decide),
    ((removeStation_first_match Scenario.threeStations "B").2
      (KitchenStation.new "B") [KitchenStation.new "A"] [KitchenStation.new "C"]
      rfl (by decide) rfl).1⟩

theorem findStation_getName (m : StationManager) (name : String) (s : KitchenStation)
    (h : findStation m name = some s) : s.getName = name := by
  obtain ⟨l⟩ := m
  obtain ⟨_, _, _, _, hs⟩ := findStation_some_split l name s h
  exact hs

theorem stationNames_storeStation (name : String) (station : KitchenStation)
    (l : List KitchenStation) (h : station.getName = name) :
    stationNames (storeStation name station l) = stationNames l := by
  induction l with
  | nil => rfl
  | cons s ss ih =>
    simp only [storeStation]
    by_cases hs : s.getName = name
    · rw [if_pos hs]
      simp [stationNames, h, hs]
    · rw [if_neg hs]
      simpa [stationNames] using ih

theorem removeStation_sublist (m : StationManager) (name : String) :
    (removeStation m name).2.items.Sublist m.items := by
  unfold removeStation
  cases firstIndex name m.items 0 with
  | none => exact List.Sublist.refl _
  | some i =>
    simp only [LinkedList.remove]
    split
    · exact List.eraseIdx_sublist _ _
    · exact List.Sublist.refl _

theorem removeStation_nodup (m : StationManager) (name : String)
    (hnd : (stationNames m.items).Nodup) :
    (stationNames (removeStation m name).2.items).Nodup :=
  ((removeStation_sublist m name).map _).nodup hnd

/-- After the removal of a name from a sequence of pairwise distinct names, no station
of that name is found. -/
theorem findStation_removeStation_self (m : StationManager) (name : String)
    (hnd : (stationNames m.items).Nodup) :
    findStation (removeStation m name).2 name = none := by
  cases hf : findStation m name with
  | none =>
    have hno := (findStation_eq_none_iff m name).mp hf
    rw [removeStation_absent m name hno]
    exact hf
  | some s =>
    obtain ⟨l⟩ := m
    obtain ⟨pre, post, heq, hpre, hs⟩ := findStation_some_split l name s hf
    subst heq
    rw [removeStation_first name s pre post hpre hs, findStation_eq_none_iff]
    intro t ht
    rcases List.mem_append.mp ht with ht | ht
    · exact hpre t ht
    · exact nodup_after name s pre post hnd hs t ht

theorem mergeStations_not_found (m : StationManager) (name1 name2 : String)
    (h : findStation m name1 = none ∨ findStation m name2 = none) :
    mergeStations m name1 name2 = (false, m) := by
  unfold mergeStations
  rcases h with h | h
  · rw [h]
  · rw [h]
    cases findStation m name1 <;> rfl

theorem canCompleteAny_iff (heap : DishHeap) (n : String) (l : List KitchenStation) :
    canCompleteAny heap n l = true ↔ ∃ s ∈ l, s.canCompleteOrder heap n = true := by
  induction l with
  | nil => simp [canCompleteAny]
  | cons s ss ih =>
    simp only [canCompleteAny, List.exists_mem_cons_iff]
    by_cases h : s.canCompleteOrder heap n = true
    · simp [h]
    · rw [if_neg h, ih]
      simp [h]

theorem prepareDish_getName (heap : DishHeap) (s : KitchenStation) (n : String) :
    (s.prepareDish heap n).2.getName = s.getName := by
  unfold KitchenStation.prepareDish
  split <;> rfl

theorem assignDish_getName (s : KitchenStation) (d : DishPtr) :
    (s.assignDishToStation d).2.getName = s.getName := by
  unfold KitchenStation.assignDishToStation
  split <;> rfl

/-! ## Claims on merging, on the names and on orders -/

/-- Claim C13. In a manager whose station names are pairwise distinct:
`mergeStations(nameA, nameB)` returns false and changes nothing when one of the two
names is not found; when both are found it returns true, and afterwards
`findStation(nameB)` finds no station. -/
theorem mergeStations_distinct_names (m : StationManager) (nameA nameB : String)
    (hnd : (stationNames m.items).Nodup) :
    ((findStation m nameA = none ∨ findStation m nameB = none) →
      mergeStations m nameA nameB = (false, m)) ∧
    (findStation m nameA ≠ none → findStation m nameB ≠ none →
      (mergeStations m nameA nameB).1 = true ∧
      findStation (mergeStations m nameA nameB).2 nameB = none) := by
  constructor
  · exact mergeStations_not_found m nameA nameB
  · intro hA hB
    cases hfa : findStation m nameA with
    | none => exact absurd hfa hA
    | some a =>
      cases hfb : findStation m nameB with
      | none => exact absurd hfb hB
      | some b =>
        rw [mergeStations_found m nameA nameB a b hfa hfb]
        exact ⟨rfl, findStation_removeStation_self m nameB hnd⟩

/-- Claim C13 on the stations "A" and "B": merging "A" with an unknown name changes
nothing, merging "A" with "B" returns true and "B" is not found afterwards. -/
theorem mergeStations_distinct_names_witness :
    (stationNames Scenario.twoStations.items).Nodup ∧
    mergeStations Scenario.twoStations "A" "Z" = (false, Scenario.twoStations) ∧
    (mergeStations Scenario.twoStations "A" "B").1 = true ∧
    findStation (mergeStations Scenario.twoStations "A" "B").2 "B" = none :=
  ⟨by decide,
    (mergeStations_distinct_names Scenario.twoStations "A" "Z" (by decide)).1
      (Or.inr (by decide)),
    (mergeStations_distinct_names Scenario.twoStations "A" "B" (by decide)).2
      (by decide) (by decide)⟩

/-- Claim C14. When the station names of a manager are pairwise distinct, they are
still pairwise distinct after `addStation`, `removeStation`, `moveStationToFront`,
`mergeStations`, `assignDishToStation`, `replenishIngredientAtStation` and
`prepareDishAtStation`, whatever the arguments. -/
theorem station_names_stay_distinct (heap : DishHeap) (m : StationManager)
    (s : KitchenStation) (n n2 dn : String) (d : DishPtr) (i : Ingredient)
    (hnd : (stationNames m.items).Nodup) :
    (stationNames (addStation m s).2.items).Nodup ∧
    (stationNames (removeStation m n).2.items).Nodup ∧
    (stationNames (moveStationToFront m n).2.items).Nodup ∧
    (stationNames (mergeStations m n n2).2.items).Nodup ∧
    (stationNames (assignDishToStation m n d).2.items).Nodup ∧
    (stationNames (replenishIngredientAtStation m n i).2.items).Nodup ∧
    (stationNames (prepareDishAtStation heap m n dn).2.items).Nodup := by
  refine ⟨?_, removeStation_nodup m n hnd, ?_, ?_, ?_, ?_, ?_⟩
  · unfold addStation
    cases hfi : firstIndex s.getName m.items 0 with
    | some _ => exact hnd
    | none =>
      have hno := (firstIndex_eq_none_iff _ _ _).mp hfi
      rw [insert_at_end]
      simp only [stationNames, List.map_append, List.map_cons, List.map_nil]
      refine List.Nodup.append hnd (List.nodup_singleton _) ?_
      intro x hx hx2
      obtain ⟨t, ht, rfl⟩ := List.mem_map.mp hx
      exact hno t ht (List.mem_singleton.mp hx2)
  · cases hf : findStation m n with
    | none =>
      unfold moveStationToFront
      rw [hf]
      exact hnd
    | some st =>
      obtain ⟨l⟩ := m
      obtain ⟨pre, post, heq, hpre, hs⟩ := findStation_some_split l n st hf
      rw [moveStationToFront_first _ n st pre post hnd heq hpre hs]
      simp only at hnd
      rw [heq] at hnd
      have hperm : (stationNames (pre ++ st :: post)).Perm (stationNames (st :: (pre ++ post))) :=
        List.Perm.map _ List.perm_middle
      exact hperm.nodup_iff.mp hnd
  · cases hfa : findStation m n with
    | none => rw [mergeStations_not_found m n n2 (Or.inl hfa)]; exact hnd
    | some a =>
      cases hfb : findStation m n2 with
      | none => rw [mergeStations_not_found m n n2 (Or.inr hfb)]; exact hnd
      | some b =>
        rw [mergeStations_found m n n2 a b hfa hfb]
        exact removeStation_nodup m n2 hnd
  · unfold assignDishToStation
    cases hf : findStation m n with
    | none => exact hnd
    | some st =>
      simp only
      rw [stationNames_storeStation n _ m.items
        ((assignDish_getName st d).trans (findStation_getName m n st hf))]
      exact hnd
  · unfold replenishIngredientAtStation
    cases hf : findStation m n with
    | none => exact hnd
    | some st =>
      simp only
      rw [stationNames_storeStation n _ m.items
        (show (st.replenishStationIngredients i).getName = n from findStation_getName m n st hf)]
      exact hnd
  · unfold prepareDishAtStation
    cases hf : findStation m n with
    | none => exact hnd
    | some st =>
      simp only
      rw [stationNames_storeStation n _ m.items
        ((prepareDish_getName heap st dn).trans (findStation_getName m n st hf))]
      exact hnd

/-- Claim C14 on the manager of `main.cpp`, at one call of each of the seven
methods. -/
theorem station_names_stay_distinct_witness :
    (stationNames Scenario.kitchen.items).Nodup ∧
    (stationNames (addStation Scenario.kitchen (KitchenStation.new "Station 3")).2.items).Nodup ∧
    (stationNames (removeStation Scenario.kitchen "Station 1").2.items).Nodup ∧
    (stationNames (moveStationToFront Scenario.kitchen "Station 1").2.items).Nodup ∧
    (stationNames (mergeStations Scenario.kitchen "Station 1" "Station 2").2.items).Nodup ∧
    (stationNames (assignDishToStation Scenario.kitchen "Station 1" Scenario.d2).2.items).Nodup ∧
    (stationNames
      (replenishIngredientAtStation Scenario.kitchen "Station 1" Scenario.i1).2.items).Nodup ∧
    (stationNames
      (prepareDishAtStation Scenario.dishes Scenario.kitchen "Station 1" "Cake").2.items).Nodup :=
  ⟨by decide,
    station_names_stay_distinct Scenario.dishes Scenario.kitchen (KitchenStation.new "Station 3")
      "Station 1" "Station 2" "Cake" Scenario.d2 Scenario.i1 (by decide)⟩

/-- Claim C15. The manager's `canCompleteOrder(n)` is true exactly when some station of
the sequence has `canCompleteOrder(n)` true, and false for the empty manager. The
method only reads: it returns a boolean and no station is written. -/
theorem canCompleteOrder_iff_some_station (heap : DishHeap) (m : StationManager)
    (n : String) :
    (canCompleteOrder heap m n = true ↔
      ∃ s ∈ m.items, s.canCompleteOrder heap n = true) ∧
    canCompleteOrder heap { items := [] } n = false :=
  ⟨canCompleteAny_iff heap n m.items, rfl⟩

end StationManager

/-! ## Further lemmas on the station -/

namespace KitchenStation

theorem replenishLoop_absent (i : Ingredient) (l : List Ingredient)
    (h : ∀ e ∈ l, e.name ≠ i.name) : replenishLoop i l = l := by
  induction l with
  | nil => rfl
  | cons e es ih =>
    simp only [replenishLoop]
    rw [if_neg (h e (List.mem_cons_self _ _)), ih (fun x hx => h x (List.mem_cons_of_mem _ hx))]

/-- An entry of the requirement's name that a scan keeps has a positive quantity. -/
theorem scanEntry_pos (req e e2 : Ingredient) (h : scanEntry req e = some e2)
    (hname : e2.name = req.name) : 0 < e2.quantity := by
  have hn : e.name = req.name := (scanEntry_name req e e2 h).symm.trans hname
  unfold scanEntry at h
  rw [if_pos hn] at h
  split at h
  · cases h
  · rename_i hq
    cases h
    simpa using hq

/-- An entry of another name is kept by a scan as it is. -/
theorem scanEntry_other (req e e2 : Ingredient) (h : scanEntry req e = some e2)
    (hname : e2.name ≠ req.name) : e2 = e := by
  have hn : e.name ≠ req.name := fun hh => hname ((scanEntry_name req e e2 h).trans hh)
  unfold scanEntry at h
  rw [if_neg hn] at h
  cases h
  rfl

/-- An entry left by the scans whose name none of the requirements has was in the stock
before them. -/
theorem mem_scans_of_not_named (reqs : List Ingredient) :
    ∀ (stock : List Ingredient) (e : Ingredient),
      e ∈ reqs.foldl (fun st req => st.filterMap (scanEntry req)) stock →
      e.name ∉ names reqs → e ∈ stock := by
  induction reqs with
  | nil => intro stock e h _; exact h
  | cons r rs ih =>
    intro stock e h hname
    have hn : e.name ≠ r.name ∧ e.name ∉ names rs := by
      simpa [names, not_or] using hname
    rw [List.foldl_cons] at h
    have h2 := ih _ e h hn.2
    obtain ⟨x, hx, hsc⟩ := List.mem_filterMap.mp h2
    rw [scanEntry_other r x e hsc hn.1]
    exact hx

/-- After the scans for a list of requirements, every entry named by one of them has a
positive quantity. -/
theorem scans_leave_positive (reqs : List Ingredient) :
    ∀ (stock : List Ingredient) (e : Ingredient),
      e ∈ reqs.foldl (fun st req => st.filterMap (scanEntry req)) stock →
      e.name ∈ names reqs → 0 < e.quantity := by
  induction reqs with
  | nil => intro stock e _ hname; simp [names] at hname
  | cons r rs ih =>
    intro stock e h hname
    rw [List.foldl_cons] at h
    by_cases hrs : e.name ∈ names rs
    · exact ih _ e h hrs
    · have hr : e.name = r.name := by
        have : e.name = r.name ∨ e.name ∈ names rs := by
          simpa [names] using hname
        exact this.resolve_right hrs
      have h2 := mem_scans_of_not_named rs _ e h hrs
      obtain ⟨x, _, hsc⟩ := List.mem_filterMap.mp h2
      exact scanEntry_pos r x e hsc hr

theorem prepareDish_true (heap : DishHeap) (s : KitchenStation) (n : String)
    (h : (prepareDish heap s n).1 = true) : canCompleteOrder heap s n = true := by
  by_contra hc
  have hf : canCompleteOrder heap s n = false := by simpa using hc
  simp [prepareDish, hf] at h

theorem prepareDish_dishes (heap : DishHeap) (s : KitchenStation) (n : String) :
    (prepareDish heap s n).2.dishes_ = s.dishes_ := by
  unfold prepareDish
  split <;> rfl

/-- After a preparation, the same order can be completed again exactly when every
requirement of the dish still has a stock entry of its name holding the required
quantity. -/
theorem canCompleteOrder_after_prepare (heap : DishHeap) (s : KitchenStation) (n : String)
    (d : DishPtr) (hfirst : FirstDishNamed heap n s.dishes_ d) :
    canCompleteOrder heap (prepareDish heap s n).2 n = true ↔
      ∀ req ∈ (heap d).ingredients,
        InStock (prepareDish heap s n).2.ingredients_stock_ req := by
  unfold canCompleteOrder
  rw [canCompleteLoop_iff, prepareDish_dishes]
  constructor
  · rintro ⟨d2, hd2, hall⟩
    rw [firstDishNamed_unique heap n _ d d2 hfirst hd2]
    exact hall
  · intro hall
    exact ⟨d, hfirst, hall⟩

/-! ## Claims on preparing and replenishing -/

/-- Claim C16, the code at a failing input. The station `bakery` is reached from an
empty station by one `assignDishToStation` and two `replenishStationIngredients`; its
stock has two entries named "flour", of 12 and of 5. `prepareDish("Bread")` succeeds,
the entry of 5 is reduced to 0 and removed, the entry of 12 goes to 7, and the
following `canCompleteOrder("Bread")` returns true. -/
theorem canCompleteOrder_true_after_depletion :
    Scenario.bakery.ingredients_stock_ =
      [{ name := "flour", quantity := 12, required_quantity := 5, price := 699 },
       { name := "flour", quantity := 5, required_quantity := 5, price := 650 }] ∧
    prepareDish Scenario.bread Scenario.bakery "Bread" =
      (true, { station_name_ := "F", dishes_ := [1], ingredients_stock_ :=
        [{ name := "flour", quantity := 7, required_quantity := 5, price := 699 }] }) ∧
    canCompleteOrder Scenario.bread (prepareDish Scenario.bread Scenario.bakery "Bread").2
      "Bread" = true := by
  decide

/-- Claim C19. When no stock entry has the name of `i`,
`replenishStationIngredients(i)` leaves the old stock as it was and appends `i` as one
new entry; the dish list and the station name are unchanged. -/
theorem replenish_new_name (s : KitchenStation) (i : Ingredient)
    (h : ∀ e ∈ s.ingredients_stock_, e.name ≠ i.name) :
    replenishStationIngredients s i =
      { s with ingredients_stock_ := s.ingredients_stock_ ++ [i] } := by
  simp [replenishStationIngredients, replenishLoop_absent i _ h]

/-- Claim C19 at the first station of `main.cpp`, replenished with salt. -/
theorem replenish_new_name_witness :
    (∀ e ∈ Scenario.station1.ingredients_stock_, e.name ≠ Scenario.salt.name) ∧
    replenishStationIngredients Scenario.station1 Scenario.salt =
      { station_name_ := "Station 1", dishes_ := [Scenario.d1],
        ingredients_stock_ :=
          [Scenario.i1, Scenario.i2, Scenario.i3, Scenario.i4, Scenario.salt] } :=
  ⟨by decide, replenish_new_name Scenario.station1 Scenario.salt (by decide)⟩

/-- Claim C20. Whenever `prepareDish(n)` returns true, with no assumption on the names
of the stock or of the requirements, the new stock has no entry that is named by a
requirement of the matched dish and has a quantity `<= 0`; and each scan of the stock,
with its erase and step back, treats every stock entry exactly once. The stock is a
vector, of fewer than `2 ^ 64` entries. -/
theorem prepareDish_leaves_no_depleted_entry (heap : DishHeap) (s : KitchenStation)
    (n : String) (d : DishPtr) (hsize : s.ingredients_stock_.length < SIZE_MOD)
    (hok : (prepareDish heap s n).1 = true)
    (hfirst : FirstDishNamed heap n s.dishes_ d) :
    (∀ e ∈ (prepareDish heap s n).2.ingredients_stock_,
      e.name ∈ names (heap d).ingredients → 0 < e.quantity) ∧
    (∀ req : Ingredient,
      stockScan req s.ingredients_stock_.length 0 s.ingredients_stock_ =
        s.ingredients_stock_.filterMap (scanEntry req)) := by
  refine ⟨?_, fun req => stockScan_eq req _ hsize⟩
  have hcan := prepareDish_true heap s n hok
  intro e he hname
  simp only [prepareDish, hcan, if_true] at he
  rw [prepareLoop_first heap n _ _ d hfirst, consumeLoop_eq_foldl _ _ hsize] at he
  exact scans_leave_positive _ _ e he hname

/-- Claim C20 at the station `bakery`, whose stock has two entries named "flour": the
one that reaches 0 is erased and the one after it is still visited. -/
theorem prepareDish_leaves_no_depleted_entry_witness :
    Scenario.bakery.ingredients_stock_.length < SIZE_MOD ∧
    (prepareDish Scenario.bread Scenario.bakery "Bread").1 = true ∧
    FirstDishNamed Scenario.bread "Bread" Scenario.bakery.dishes_ 1 ∧
    (∀ e ∈ (prepareDish Scenario.bread Scenario.bakery "Bread").2.ingredients_stock_,
      e.name ∈ names (Scenario.bread 1).ingredients → 0 < e.quantity) :=
  ⟨by decide, by decide, ⟨[], [], rfl, by simp, rfl⟩,
    (prepareDish_leaves_no_depleted_entry Scenario.bread Scenario.bakery "Bread" 1
      (by decide) (by decide) ⟨[], [], rfl, by simp, rfl⟩).1⟩

end KitchenStation

/-! ## Claims on the scenario of `main.cpp` -/

namespace StationManager

/-- Claim C17. In the manager of `main.cpp`, `canCompleteOrder("Cake")` is true,
`prepareDishAtStation("Station 1", "Cake")` returns true, and the stock of "Station 1"
afterwards is flour 5, sugar 10, eggs 10, butter 3: the four entries, none removed. -/
theorem scenario_first_preparation :
    canCompleteOrder Scenario.dishes Scenario.kitchen "Cake" = true ∧
    (prepareDishAtStation Scenario.dishes Scenario.kitchen "Station 1" "Cake").1 = true ∧
    (findStation Scenario.afterFirst "Station 1").map (fun st => st.getIngredientsStock) =
      some [{ name := "flour", quantity := 5, required_quantity := 5, price := 699 },
            { name := "sugar", quantity := 10, required_quantity := 10, price := 399 },
            { name := "eggs", quantity := 10, required_quantity := 2, price := 499 },
            { name := "butter", quantity := 3, required_quantity := 3, price := 499 }] := by
  decide

/-- Claim C18, the code at a failing input. The second
`prepareDishAtStation("Station 1", "Cake")` returns true and leaves eggs 8 as the only
stock entry: flour, sugar and butter are removed. At the third call the station's
`prepareDish("Cake")` returns false and the stock stays as it is, and
`prepareDishAtStation` returns true. -/
theorem scenario_third_preparation_returns_true :
    (prepareDishAtStation Scenario.dishes Scenario.afterFirst "Station 1" "Cake").1 = true ∧
    (findStation Scenario.afterSecond "Station 1").map (fun st => st.getIngredientsStock) =
      some [{ name := "eggs", quantity := 8, required_quantity := 2, price := 499 }] ∧
    (findStation Scenario.afterSecond "Station 1").map
      (fun st => (st.prepareDish Scenario.dishes "Cake").1) = some false ∧
    prepareDishAtStation Scenario.dishes Scenario.afterSecond "Station 1" "Cake" =
      (true, Scenario.afterSecond) := by
  decide

/-! ## Claim on merging a station with itself -/

/-- Claim C21. In a manager whose station names are pairwise distinct and that has a
station named `n`, `mergeStations(n, n)` returns true and removes that station: the
sequence is one station shorter, the others are kept in order, and `findStation(n)`
finds no station afterwards. A merge of a station with itself is not refused and it
changes the manager. -/
theorem mergeStations_self_removes (m : StationManager) (n : String)
    (hnd : (stationNames m.items).Nodup) (hfound : ∃ t ∈ m.items, t.getName = n) :
    (mergeStations m n n).1 = true ∧
    (mergeStations m n n).2 = (removeStation m n).2 ∧
    (mergeStations m n n).2.getLength + 1 = m.getLength ∧
    findStation (mergeStations m n n).2 n = none ∧
    (mergeStations m n n).2 ≠ m := by
  cases hf : findStation m n with
  | none =>
    obtain ⟨t, ht, hname⟩ := hfound
    exact absurd hname ((findStation_eq_none_iff m n).mp hf t ht)
  | some s =>
    have hmerge := mergeStations_found m n n s s hf hf
    obtain ⟨l⟩ := m
    obtain ⟨pre, post, heq, hpre, hs⟩ := findStation_some_split l n s hf
    subst heq
    have hlen : (removeStation { items := pre ++ s :: post } n).2.getLength + 1 =
        LinkedList.getLength { items := pre ++ s :: post } := by
      rw [removeStation_first n s pre post hpre hs]
      simp only [LinkedList.getLength, List.length_cons, List.length_append]
      omega
    rw [hmerge]
    refine ⟨rfl, rfl, hlen, findStation_removeStation_self _ n hnd, ?_⟩
    intro heq
    rw [heq] at hlen
    omega

/-- Claim C21 on three stations "A", "B", "C": merging "B" with itself returns true
and leaves "A", "C". -/
theorem mergeStations_self_removes_witness :
    (stationNames Scenario.threeStations.items).Nodup ∧
    (∃ t ∈ Scenario.threeStations.items, t.getName = "B") ∧
    mergeStations Scenario.threeStations "B" "B" =
      (true, { items := [KitchenStation.new "A", KitchenStation.new "C"] }) ∧
    findStation (mergeStations Scenario.threeStations "B" "B").2 "B" = none :=
  ⟨by decide, ⟨KitchenStation.new "B", by decide, rfl⟩, by decide,
    (mergeStations_self_removes Scenario.threeStations "B" (by decide)
      ⟨KitchenStation.new "B", by decide, rfl⟩).2.2.2.1⟩

end StationManager

end Bistro
